import Mathlib

/-!
Verification development for the go-ipgs commit-chain / game state machine.

The Go sources embedded here are the `state` package: the commit types
(`Challenge`, `ChallengeAcceptance`, `ChallengeConfirmation`, `GameStep`),
the `Game` container with its lifecycle operations (`CreateGame`, `Accept`,
`Confirm`, `Step`), the structural validator, and the fast-forward `Merge`
engine.

Modelling conventions:
- `time.Time` values are modelled as `Nat` instants; the Go rendering
  `t.UTC().Format(time.RFC3339Nano)` is modelled by `fmtTime`, an injective
  rendering of the instant to a string (the claims treat the rendered
  timestamp as an opaque token inside pipe-delimited strings).
- `time.Duration` is a `Nat`; `now.Add(exp)` becomes `now + exp`.
- ECDSA signatures are modelled symbolically: a signature is the pair of
  the signing key identifier and the exact message bytes; `crypto.Verify`
  succeeds iff the key identifiers match and the message equals the signed
  bytes.  Byte strings (`[]byte`) are modelled as `String`.
- Go `[]byte` signatures distinguish only empty from non-empty in the
  sources (`len(c.signature) == 0`), so a stored signature is
  `Option MSig` with `none` for the empty slice.
- Pointers to immutable published commits are modelled as values; Go
  defensive slice copies are identities on immutable Lean values.  The one
  pointer comparison in the sources (`g.Challenge().Challenger() !=
  confirmer` in `Game.Confirm`) is modelled as value equality of players;
  distinct players carry distinct key material.
- Methods that mutate a `Game` in place return `Option String × Game`:
  the first component is the Go error (`none` on success), the second the
  state of the receiver after the call, so the head-rollback behaviour of
  the sources is represented explicitly.
-/

/-- A public key together with its content-address, as in state.PublicKey:
the crypto key is reduced to its identifier `kid`, the `hash` field is the
IPFS hash string used as the player fingerprint. -/
structure PubKey where
  kid : Nat
  hash : String
deriving DecidableEq, Repr

/-- Modelled from the spec: the state.Player type used by the game code is
absent from the sources (only its callers and tests are present).  Per the
spec a player optionally holds a public key and, when it is the local
operator, a private key; `NewPlayer(pub, priv)` populates both fields. -/
structure Player where
  key : Option PubKey
  privateKey : Option Nat
deriving DecidableEq, Repr

/-- Modelled from the spec: Player.ID, the public-key fingerprint used as
the author reference and equality key; the game tests pin it to the hash of
the public key, and the empty string when no key is present. -/
def Player.ID (p : Player) : String :=
  match p.key with
  | some k => k.hash
  | none => ""

/-- NewPlayer constructor, mirrored from the calls in the game tests. -/
def NewPlayer (k : Option PubKey) (pk : Option Nat) : Player :=
  { key := k, privateKey := pk }

/-- Symbolic detached signature: the signing key identifier and the exact
canonical bytes that were signed. -/
structure MSig where
  keyId : Nat
  data : String
deriving DecidableEq, Repr

/-- Models crypto.Sign: sign canonical bytes with a private key. -/
def cryptoSign (d : String) (k : Nat) : MSig :=
  { keyId := k, data := d }

/-- Models crypto.Verify: a signature checks out against a public key iff
it was produced by the matching private key over exactly these bytes. -/
def cryptoVerify (d : String) (s : MSig) (k : PubKey) : Bool :=
  s.keyId = k.kid && s.data = d

/-- Models the Go rendering t.UTC().Format(time.RFC3339Nano) of a time
instant: an injective rendering of the instant as a string. -/
def fmtTime (t : Nat) : String :=
  toString t

/-- state.Challenge: the root commit of a game chain. -/
structure Challenge where
  timeout : Nat
  comment : String
  challenger : Player
  timestamp : Nat
  signature : Option MSig
  hash : String
deriving DecidableEq, Repr

/-- state.ChallengeAcceptance: second commit, holds its parent Challenge. -/
structure ChallengeAcceptance where
  timeout : Nat
  comment : String
  challenge : Challenge
  accepter : Player
  timestamp : Nat
  signature : Option MSig
  hash : String
deriving DecidableEq, Repr

/-- state.ChallengeConfirmation: third commit, holds its parent acceptance. -/
structure ChallengeConfirmation where
  timeout : Nat
  comment : String
  acceptance : ChallengeAcceptance
  confirmer : Player
  timestamp : Nat
  signature : Option MSig
  hash : String
deriving DecidableEq, Repr

/-- The state.Commit interface as a closed sum of the four variants. The
GameStep variant is inlined: modelled from the spec (the GameStep struct is
absent from the sources; its fields player, data, parent, timestamp,
signature, hash are pinned by the game code and tests), with `parent` an
arbitrary commit exactly as gs.parent = g.head in Game.Step. -/
inductive Commit where
  | ch (c : Challenge)
  | ca (c : ChallengeAcceptance)
  | cc (c : ChallengeConfirmation)
  | gs (player : Player) (data : String) (parent : Commit) (timestamp : Nat)
       (signature : Option MSig) (hash : String)
deriving DecidableEq, Repr

namespace Commit

/-- Parent() of each commit variant: nil for the root Challenge. -/
def Parent : Commit → Option Commit
  | .ch _ => none
  | .ca c => some (.ch c.challenge)
  | .cc c => some (.ca c.acceptance)
  | .gs _ _ p _ _ _ => some p

/-- Hash() accessor. -/
def Hash : Commit → String
  | .ch c => c.hash
  | .ca c => c.hash
  | .cc c => c.hash
  | .gs _ _ _ _ _ h => h

/-- Committer() of each variant: challenger, accepter, confirmer, player. -/
def Committer : Commit → Player
  | .ch c => c.challenger
  | .ca c => c.accepter
  | .cc c => c.confirmer
  | .gs p _ _ _ _ _ => p

/-- Timestamp() accessor. -/
def Timestamp : Commit → Nat
  | .ch c => c.timestamp
  | .ca c => c.timestamp
  | .cc c => c.timestamp
  | .gs _ _ _ t _ _ => t

/-- Stored signature of each variant. -/
def Sig : Commit → Option MSig
  | .ch c => c.signature
  | .ca c => c.signature
  | .cc c => c.signature
  | .gs _ _ _ _ s _ => s

/-- Replace the stored signature, as the assignment c.signature = sig. -/
def withSig : Commit → Option MSig → Commit
  | .ch c, s => .ch { c with signature := s }
  | .ca c, s => .ca { c with signature := s }
  | .cc c, s => .cc { c with signature := s }
  | .gs p d q t _ h, s => .gs p d q t s h

end Commit

/-- Challenge.ID(): challenger id and RFC3339Nano UTC timestamp joined by
a pipe. -/
def Challenge.cID (c : Challenge) : String :=
  Player.ID c.challenger ++ "|" ++ fmtTime c.timestamp

/-- ChallengeAcceptance.ID(): the parent challenge id and the accepter id
joined by a pipe. -/
def ChallengeAcceptance.cID (c : ChallengeAcceptance) : String :=
  c.challenge.cID ++ "|" ++ Player.ID c.accepter

/-- ChallengeConfirmation.ID(): the acceptance id unchanged. -/
def ChallengeConfirmation.cID (c : ChallengeConfirmation) : String :=
  c.acceptance.cID

namespace Commit

/-- The derived ID() of each variant; the GameStep case is modelled from
the spec (GameStep.ID() = parent.ID()). -/
def ID : Commit → String
  | .ch c => c.cID
  | .ca c => c.cID
  | .cc c => c.cID
  | .gs _ _ p _ _ _ => ID p

/-- SignatureData() of each variant: the canonical pipe-delimited signing
bytes.  The GameStep case is modelled from the spec (template
ID|Timestamp|data|Parent.Hash, failing when the parent has no hash). -/
def SignatureData : Commit → Except String String
  | .ch c =>
    .ok (ID (.ch c) ++ "|" ++ fmtTime c.timeout ++ "|" ++ c.comment ++ "|" ++ "none")
  | .ca c =>
    if c.challenge.hash = "" then
      .error "the parent challenge does not have a hash"
    else
      .ok (ID (.ca c) ++ "|" ++ fmtTime c.timeout ++ "|" ++ c.comment ++ "|" ++ c.challenge.hash)
  | .cc c =>
    if c.acceptance.hash = "" then
      .error "the parent challenge does not have a hash"
    else
      .ok (ID (.cc c) ++ "|" ++ fmtTime c.timeout ++ "|" ++ c.comment ++ "|" ++ c.acceptance.hash)
  | .gs p d q t s h =>
    if q.Hash = "" then
      .error "the parent commit does not have a hash"
    else
      .ok (ID (.gs p d q t s h) ++ "|" ++ fmtTime t ++ "|" ++ d ++ "|" ++ q.Hash)

end Commit

/-- signCommit: fails when the committer has no private key or when the
canonical bytes cannot be built, otherwise signs them. -/
def signCommit (c : Commit) : Except String MSig :=
  match c.Committer.privateKey with
  | none => .error "signers private key is not available"
  | some k =>
    match c.SignatureData with
    | .error e => .error e
    | .ok d => .ok (cryptoSign d k)

/-- verifyCommit: fails when the committer has no public key, when the
canonical bytes cannot be built, or when the signature does not check out
over them (an empty stored signature never checks out). -/
def verifyCommit (c : Commit) : Except String Unit :=
  match c.Committer.key with
  | none => .error "signers public key is not available"
  | some pk =>
    match c.SignatureData with
    | .error e => .error e
    | .ok d =>
      match c.Sig with
      | some s => if cryptoVerify d s pk then .ok () else .error "signature is not ok"
      | none => .error "signature is not ok"

/-- Sign() as shared by all four variants: a no-op when a signature is
already stored, otherwise signCommit and store the result. -/
def Commit.sign (c : Commit) : Except String Commit :=
  match c.Sig with
  | some _ => .ok c
  | none =>
    match signCommit c with
    | .error e => .error e
    | .ok s => .ok (c.withSig (some s))

namespace Commit

/-- The root-to-head commit sequence reachable from this commit, exactly
what Game.Commits() produces for a game with this head: the Parent walk,
reversed. -/
def chain : Commit → List Commit
  | .ch c => [.ch c]
  | .ca c => [.ch c.challenge, .ca c]
  | .cc c => [.ch c.acceptance.challenge, .ca c.acceptance, .cc c]
  | .gs p d q t s h => q.chain ++ [.gs p d q t s h]

/-- Game.findCommit: walk from this commit towards the root and return the
first commit satisfying the predicate.  The walk visits exactly the chain
in head-to-root order, so it is the first match on the reversed chain. -/
def findCommit (f : Commit → Bool) (c : Commit) : Option Commit :=
  c.chain.reverse.find? f

/-- Discriminator for the Challenge variant. -/
def isCh : Commit → Bool
  | .ch _ => true
  | _ => false

/-- Discriminator for the ChallengeAcceptance variant. -/
def isCa : Commit → Bool
  | .ca _ => true
  | _ => false

/-- Discriminator for the ChallengeConfirmation variant. -/
def isCc : Commit → Bool
  | .cc _ => true
  | _ => false

/-- Discriminator for the GameStep variant. -/
def isGs : Commit → Bool
  | .gs _ _ _ _ _ _ => true
  | _ => false

end Commit

/-- state.Game: a handle around the mutable head commit; nil head for a
game made by NewGame(). -/
structure Game where
  head : Option Commit
deriving DecidableEq, Repr

/-- NewGame(): a game with a nil head. -/
def NewGame : Game :=
  { head := none }

namespace Game

/-- Game.Commits(): the root-to-head sequence, empty for a nil head. -/
def commits (g : Game) : List Commit :=
  match g.head with
  | none => []
  | some h => h.chain

/-- Game.Challenge(): the challenge nearest the head, if any. -/
def getChallenge (g : Game) : Option Challenge :=
  match g.head with
  | none => none
  | some h =>
    match h.findCommit Commit.isCh with
    | some (.ch c) => some c
    | _ => none

/-- Game.Acceptance(): the acceptance nearest the head, if any. -/
def getAcceptance (g : Game) : Option ChallengeAcceptance :=
  match g.head with
  | none => none
  | some h =>
    match h.findCommit Commit.isCa with
    | some (.ca c) => some c
    | _ => none

/-- Game.Confirmation(): the confirmation nearest the head, if any. -/
def getConfirmation (g : Game) : Option ChallengeConfirmation :=
  match g.head with
  | none => none
  | some h =>
    match h.findCommit Commit.isCc with
    | some (.cc c) => some c
    | _ => none

/-- Game.ID() is g.head.ID(); the result none models the nil-pointer
dereference that the Go code performs when head is nil. -/
def gameID (g : Game) : Option String :=
  g.head.map Commit.ID

/-- Game.Timestamp() is g.head.Timestamp(); none models the nil-pointer
dereference on a nil head. -/
def gameTimestamp (g : Game) : Option Nat :=
  g.head.map Commit.Timestamp

end Game

/-- The positional-typing loop of Game.validate: the commit at position 0
must be a Challenge, at 1 a ChallengeAcceptance, at 2 a
ChallengeConfirmation, and at any later position a GameStep. -/
def posCheck : Nat → List Commit → Option String
  | _, [] => none
  | 0, c :: rest =>
    match c with
    | .ch _ => posCheck 1 rest
    | _ => some "the first commit is not a challenge"
  | 1, c :: rest =>
    match c with
    | .ca _ => posCheck 2 rest
    | _ => some "the second commit is not a challenge acceptance"
  | 2, c :: rest =>
    match c with
    | .cc _ => posCheck 3 rest
    | _ => some "the third commit is not a challenge confirmation"
  | i + 3, c :: rest =>
    match c with
    | .gs _ _ _ _ _ _ => posCheck (i + 4) rest
    | _ => some "commit is not a game step"

/-- Game.validate: positional typing of the full chain, then the rule that
a present confirmation was committed by the challenger. -/
def Game.validate (g : Game) : Option String :=
  match posCheck 0 g.commits with
  | some e => some e
  | none =>
    match g.getChallenge, g.getConfirmation with
    | some ch, some cc =>
      if Player.ID ch.challenger ≠ Player.ID cc.confirmer then
        some "the game was not confirmed by the challenger"
      else none
    | _, _ => none

/-- CreateGame: build and sign a Challenge for the challenger, then
validate the one-commit chain. -/
def createGame (challenger : Player) (exp : Nat) (c : String) (now : Nat) :
    Except String Game :=
  if Player.ID challenger = "" then .error "challenger has an empty id"
  else if challenger.privateKey.isNone then .error "missing challenger private key"
  else
    match (Commit.ch { timeout := now + exp, comment := c, challenger := challenger,
                       timestamp := now, signature := none, hash := "" }).sign with
    | .error e => .error ("failed to create challenge: " ++ e)
    | .ok hd =>
      match Game.validate { head := some hd } with
      | some e => .error ("failed to create game: " ++ e)
      | none => .ok { head := some hd }

/-- Game.Accept: append a signed acceptance of the current challenge and
re-validate, rolling the head back on validation failure. -/
def Game.accept (g : Game) (accepter : Player) (exp : Nat) (c : String) (now : Nat) :
    Option String × Game :=
  if (g.getAcceptance).isSome then (some "game has already been accepted", g)
  else
    match g.getChallenge with
    | none => (some "challenge has not been created yet", g)
    | some ch =>
      if Player.ID accepter = "" then (some "accepter has an empty id", g)
      else if accepter.privateKey.isNone then (some "missing accepter private key", g)
      else
        match (Commit.ca { timeout := now + exp, challenge := ch, accepter := accepter,
                           comment := c, timestamp := now, signature := none, hash := "" }).sign with
        | .error e => (some ("failed to create challenge acceptance: " ++ e), g)
        | .ok hd =>
          match Game.validate { head := some hd } with
          | some e => (some ("failed to add challenge acceptance to game: " ++ e), g)
          | none => (none, { head := some hd })

/-- Game.Confirm: append a signed confirmation by the original challenger
and re-validate, rolling the head back on validation failure.  The
comparison of the confirmer with the challenger is the pointer comparison
of the sources, modelled as value equality of players. -/
def Game.confirm (g : Game) (confirmer : Player) (exp : Nat) (c : String) (now : Nat) :
    Option String × Game :=
  if (g.getConfirmation).isSome then (some "game has already been confirmed", g)
  else if (g.getAcceptance).isNone then (some "challange has not been accepted yet", g)
  else if Player.ID confirmer = "" then (some "confirmer has an empty id", g)
  else if confirmer.privateKey.isNone then (some "missing confirmer private key", g)
  else
    match g.getChallenge with
    | none =>
      -- models the Go nil-pointer dereference of g.Challenge(); unreachable
      -- because any chain that holds an acceptance also holds its challenge
      (some "nil challenge dereference", g)
    | some ch =>
      if confirmer ≠ ch.challenger then
        (some "only the challenger may confirm a challenge", g)
      else
        match g.getAcceptance with
        | none =>
          -- unreachable: guarded above
          (some "nil acceptance dereference", g)
        | some a =>
          match (Commit.cc { timeout := now + exp, acceptance := a, confirmer := confirmer,
                             comment := c, timestamp := now, signature := none, hash := "" }).sign with
          | .error e => (some ("failed to create challenge confirmation: " ++ e), g)
          | .ok hd =>
            match Game.validate { head := some hd } with
            | some e => (some ("failed to add challenge confirmation to game: " ++ e), g)
            | none => (none, { head := some hd })

/-- Game.Step: append a signed game step by any player onto the current
head and re-validate, rolling the head back on validation failure. -/
def Game.step (g : Game) (player : Player) (data : String) (now : Nat) :
    Option String × Game :=
  if (g.getConfirmation).isNone then (some "hame has not been confirmed yet", g)
  else if Player.ID player = "" then (some "player has an empty id", g)
  else if player.privateKey.isNone then (some "missing player private key", g)
  else
    match g.head with
    | none =>
      -- models the Go nil dereference of gs.parent = g.head; unreachable
      -- because a confirmation was found in the chain
      (some "nil head dereference", g)
    | some hd =>
      match (Commit.gs player data hd now none "").sign with
      | .error e => (some ("failed to create game step: " ++ e), g)
      | .ok hd2 =>
        match Game.validate { head := some hd2 } with
        | some e => (some ("failed to add game step to game: " ++ e), g)
        | none => (none, { head := some hd2 })

/-- The common-length loop of Game.Merge: the number of initial positions
at which the two root-to-head sequences agree on hashes, scanning from the
root and stopping at the first mismatch or at the end of either sequence. -/
def commonLen : List Commit → List Commit → Nat
  | [], _ => 0
  | _, [] => 0
  | cg :: gRest, co :: oRest =>
    if cg.Hash = co.Hash then commonLen gRest oRest + 1 else 0

/-- One iteration of the merge clone loop: re-parent a fresh copy of the
commit onto the growing local chain, type-checking the attach point and
re-verifying the signature of the re-parented clone. -/
def cloneOnto (head : Commit) (c : Commit) : Except String Commit :=
  match c with
  | .ch _ => .error "found a Challenge in the new tail; just copy the game"
  | .ca x =>
    match head with
    | .ch chP =>
      match verifyCommit (.ca { x with challenge := chP }) with
      | .error e => .error ("failed to verify cloned challenge acceptance: " ++ e)
      | .ok _ => .ok (.ca { x with challenge := chP })
    | _ => .error "previous commit is not a challenge"
  | .cc x =>
    match head with
    | .ca caP =>
      match verifyCommit (.cc { x with acceptance := caP }) with
      | .error e => .error ("failed to verify cloned challenge confirmation: " ++ e)
      | .ok _ => .ok (.cc { x with acceptance := caP })
    | _ => .error "previous commit is not a challenge acceptance"
  | .gs pl d _ t s h =>
    match head with
    | .cc _ | .gs _ _ _ _ _ _ =>
      match verifyCommit (.gs pl d head t s h) with
      | .error e => .error ("failed to verify cloned game step: " ++ e)
      | .ok _ => .ok (.gs pl d head t s h)
    | _ => .error "previous commit is not a challenge confirmation or game step"

/-- The merge clone loop over the new tail: clone each commit onto the
chain grown so far and return the final head (the last clone). -/
def mergeTail (head : Commit) : List Commit → Except String Commit
  | [] => .ok head
  | c :: rest =>
    match cloneOnto head c with
    | .error e => .error e
    | .ok y => mergeTail y rest

/-- Game.Merge: require published hashes everywhere, find the common hash
prefix, reject empty common history and diverged tails, fast-forward by
cloning the remaining suffix of the other game onto the local head, then
re-validate, rolling back on failure. -/
def Game.merge (g o : Game) : Option String × Game :=
  if g.commits.any (fun c => c.Hash = "") then
    (some "no hash for commit in this game", g)
  else if o.commits.any (fun c => c.Hash = "") then
    (some "no has for commit in other game", g)
  else if commonLen g.commits o.commits = 0 then
    (some "the two games do not share a common history", g)
  else
    match (g.commits.take (commonLen g.commits o.commits)).getLast? with
    | none =>
      -- unreachable: the common length is positive, so the prefix is non-empty
      (some "empty common prefix", g)
    | some lastCommon =>
      if (o.commits.drop (commonLen g.commits o.commits)).isEmpty then (none, g)
      else if !(g.commits.drop (commonLen g.commits o.commits)).isEmpty then
        (some "the two games have diverged", g)
      else
        match mergeTail lastCommon (o.commits.drop (commonLen g.commits o.commits)) with
        | .error e => (some e, g)
        | .ok newHead =>
          match Game.validate { head := some newHead } with
          | some e => (some ("failed to update game head: " ++ e), g)
          | none => (none, { head := some newHead })

/-- Assignment into the committer map of Game.Players, pls[pID] = p on an
association list in insertion order. -/
def insertPl (m : List (String × Player)) (i : String) (p : Player) :
    List (String × Player) :=
  if m.any (fun x => x.1 = i) then
    m.map (fun x => if x.1 = i then (i, p) else x)
  else m ++ [(i, p)]

/-- The walk of Game.Players over the head-to-root commits, recording each
committer with a non-empty id in the map. -/
def collectPlayers : List Commit → List (String × Player) → List (String × Player)
  | [], m => m
  | c :: rest, m =>
    collectPlayers rest
      (if Player.ID c.Committer ≠ "" then insertPl m (Player.ID c.Committer) c.Committer else m)

/-- The head-to-root commit walk order used by Game.Players. -/
def Game.headToRoot (g : Game) : List Commit :=
  match g.head with
  | none => []
  | some h => h.chain.reverse

/-- The committer map of Game.Players keyed by player id. -/
def Game.playersMap (g : Game) : List (String × Player) :=
  collectPlayers g.headToRoot []

/-- Game.Players: a slice created with make length len(pls), so holding
len(pls) nil entries, to which the players are then appended. -/
def Game.players (g : Game) : List (Option Player) :=
  List.replicate g.playersMap.length (none : Option Player) ++
    g.playersMap.map (fun x => some x.2)

/-! ### Basic lemmas about commits and chains -/

@[simp]
theorem Commit.Sig_withSig (c : Commit) (s : Option MSig) : (c.withSig s).Sig = s := by
  cases c <;> rfl

@[simp]
theorem Commit.chain_ne_nil (c : Commit) : c.chain ≠ [] := by
  cases c <;> simp [Commit.chain]

theorem Commit.chain_getLast (c : Commit) : c.chain.getLast? = some c := by
  cases c <;> simp [Commit.chain]

/-- Decidable equality of Except results, for evaluating the operations at
concrete inputs. -/
instance {e a : Type} [DecidableEq e] [DecidableEq a] : DecidableEq (Except e a)
  | .error x, .error y =>
    if h : x = y then isTrue (by rw [h]) else isFalse (fun hh => by cases hh; exact h rfl)
  | .error _, .ok _ => isFalse (fun h => by cases h)
  | .ok _, .error _ => isFalse (fun h => by cases h)
  | .ok x, .ok y =>
    if h : x = y then isTrue (by rw [h]) else isFalse (fun hh => by cases hh; exact h rfl)

/-! ### Claim fixtures: small concrete players and commits -/

/-- Concrete player with fingerprint A. -/
def pA : Player := { key := some { kid := 1, hash := "A" }, privateKey := some 1 }

/-- Concrete player with fingerprint B. -/
def pB : Player := { key := some { kid := 2, hash := "B" }, privateKey := some 2 }

/-- Concrete player with fingerprint C. -/
def pC : Player := { key := some { kid := 3, hash := "C" }, privateKey := some 3 }

/-! ### Claim C4: canonical signing codec -/

/-- C4: SignatureData of an acceptance or confirmation fails exactly when
the referenced ancestor has an empty hash, and otherwise produces the
pipe-delimited string ID, timeout rendered RFC3339Nano UTC, comment, and
ancestor hash; Challenge.SignatureData always succeeds and ends with the
literal field none. -/
theorem signature_data_canonical :
    (∀ a : ChallengeAcceptance,
      (a.challenge.hash = "" →
        Commit.SignatureData (.ca a) = .error "the parent challenge does not have a hash") ∧
      (a.challenge.hash ≠ "" →
        Commit.SignatureData (.ca a) =
          .ok (Commit.ID (.ca a) ++ "|" ++ fmtTime a.timeout ++ "|" ++ a.comment ++ "|" ++
            a.challenge.hash))) ∧
    (∀ k : ChallengeConfirmation,
      (k.acceptance.hash = "" →
        Commit.SignatureData (.cc k) = .error "the parent challenge does not have a hash") ∧
      (k.acceptance.hash ≠ "" →
        Commit.SignatureData (.cc k) =
          .ok (Commit.ID (.cc k) ++ "|" ++ fmtTime k.timeout ++ "|" ++ k.comment ++ "|" ++
            k.acceptance.hash))) ∧
    (∀ c : Challenge,
      Commit.SignatureData (.ch c) =
        .ok (Commit.ID (.ch c) ++ "|" ++ fmtTime c.timeout ++ "|" ++ c.comment ++ "|" ++ "none")) := by
  refine ⟨fun a => ⟨fun h => by simp [Commit.SignatureData, h], fun h => by simp [Commit.SignatureData, h]⟩,
    fun k => ⟨fun h => by simp [Commit.SignatureData, h], fun h => by simp [Commit.SignatureData, h]⟩,
    fun c => by simp [Commit.SignatureData]⟩

/-- Concrete acceptance over a published challenge, for the C4 witness. -/
def caFix : ChallengeAcceptance :=
  { timeout := 7, comment := "ok", accepter := pB, timestamp := 3, signature := none, hash := "",
    challenge := { timeout := 5, comment := "hi", challenger := pA, timestamp := 1,
                   signature := none, hash := "H1" } }

/-- Witness for C4 at a concrete acceptance whose challenge has hash H1. -/
theorem signature_data_canonical_witness :
    caFix.challenge.hash ≠ "" ∧
    Commit.SignatureData (.ca caFix) =
      .ok (Commit.ID (.ca caFix) ++ "|" ++ fmtTime caFix.timeout ++ "|" ++ caFix.comment ++ "|" ++
        caFix.challenge.hash) :=
  ⟨by decide, (signature_data_canonical.1 caFix).2 (by decide)⟩

/-! ### Claim C8: Sign idempotence -/

/-- C8: Sign on a commit that already stores a signature succeeds and
leaves the commit unchanged, and a second Sign immediately after any
successful Sign leaves the commit state of the first call unchanged. -/
theorem sign_idempotent :
    (∀ c : Commit, c.Sig ≠ none → c.sign = .ok c) ∧
    (∀ c c2 : Commit, c.sign = .ok c2 → c2.sign = .ok c2) := by
  have h1 : ∀ c : Commit, c.Sig ≠ none → c.sign = .ok c := by
    intro c hc
    unfold Commit.sign
    cases h : c.Sig with
    | none => exact absurd h hc
    | some s => simp
  refine ⟨h1, fun c c2 hc => ?_⟩
  unfold Commit.sign at hc
  cases h : c.Sig with
  | some s =>
    rw [h] at hc
    simp at hc
    subst hc
    exact h1 c (by simp [h])
  | none =>
    rw [h] at hc
    cases hs : signCommit c with
    | error e => rw [hs] at hc; exact absurd hc (by simp)
    | ok s =>
      rw [hs] at hc
      simp at hc
      subst hc
      exact h1 _ (by simp)

/-- Concrete already-signed commit for the C8 witness. -/
def chSigned : Commit :=
  .ch { timeout := 5, comment := "hi", challenger := pA, timestamp := 1,
        signature := some { keyId := 1, data := "A|1|5|hi|none" }, hash := "" }

/-- Witness for C8 at a concrete signed challenge. -/
theorem sign_idempotent_witness :
    chSigned.Sig ≠ none ∧ chSigned.sign = .ok chSigned :=
  ⟨by decide, sign_idempotent.1 chSigned (by decide)⟩

/-! ### Claim C3: derived ID scheme and stability -/

/-- A confirmed game head: the confirmation itself, or a tower of game
steps whose parent chain descends to that confirmation.  This is exactly
the head shape of a confirmed game with N steps. -/
inductive TowerOverCC : ChallengeConfirmation → Commit → Prop
  | base (k : ChallengeConfirmation) : TowerOverCC k (.cc k)
  | step (k : ChallengeConfirmation) (pl : Player) (d : String) (p : Commit) (t : Nat)
      (s : Option MSig) (h : String) :
      TowerOverCC k p → TowerOverCC k (.gs pl d p t s h)

theorem TowerOverCC.not_isCh {k : ChallengeConfirmation} {c : Commit}
    (h : TowerOverCC k c) : c.isCh = false := by
  cases h <;> rfl

theorem TowerOverCC.id_eq {k : ChallengeConfirmation} {c : Commit}
    (h : TowerOverCC k c) : c.ID = Commit.ID (.ca k.acceptance) := by
  induction h with
  | base => rfl
  | step pl d p t s hh hp ih => simpa [Commit.ID] using ih

theorem TowerOverCC.chain_id_eq {k : ChallengeConfirmation} {c : Commit}
    (h : TowerOverCC k c) :
    ∀ x ∈ c.chain, x.isCh = false → x.ID = Commit.ID (.ca k.acceptance) := by
  induction h with
  | base =>
    intro x hx hch
    simp [Commit.chain] at hx
    rcases hx with rfl | rfl | rfl
    · exact absurd hch (by simp [Commit.isCh])
    · rfl
    · rfl
  | step pl d p t s hh hp ih =>
    intro x hx hch
    simp [Commit.chain] at hx
    rcases hx with hx | rfl
    · exact ih x hx hch
    · simpa [Commit.ID] using hp.id_eq

/-- C3 amended: the three ID templates of the sources, and, for every
confirmed game with N steps, the game id equals the id of the challenge
acceptance commit, as does the id of every commit of the chain other than
the root challenge; the id of the root challenge itself is the strict
prefix missing the accepter id, so it differs whenever the accepter id is
non-empty. -/
theorem id_scheme_and_stability :
    (∀ c : Challenge, Commit.ID (.ch c) = Player.ID c.challenger ++ "|" ++ fmtTime c.timestamp) ∧
    (∀ a : ChallengeAcceptance,
      Commit.ID (.ca a) = Commit.ID (.ch a.challenge) ++ "|" ++ Player.ID a.accepter) ∧
    (∀ k : ChallengeConfirmation, Commit.ID (.cc k) = Commit.ID (.ca k.acceptance)) ∧
    (∀ (k : ChallengeConfirmation) (c : Commit), TowerOverCC k c →
      Game.gameID { head := some c } = some (Commit.ID (.ca k.acceptance)) ∧
      ∀ x ∈ c.chain, x.isCh = false → x.ID = Commit.ID (.ca k.acceptance)) := by
  refine ⟨fun c => rfl, fun a => rfl, fun k => rfl, fun k c h => ⟨?_, h.chain_id_eq⟩⟩
  simp [Game.gameID, h.id_eq]

/-- Concrete confirmed game head for C3: challenge by pA at time 1,
accepted by pB, confirmed by pA. -/
def ccFix : ChallengeConfirmation :=
  { timeout := 9, comment := "go", confirmer := pA, timestamp := 4, signature := none,
    hash := "H3", acceptance := caFix }

/-- C3 counterexample: in the concrete confirmed game with head ccFix the
game id is the acceptance id A|1|B, while the ID() of the Challenge commit
is A|1, so the claim that the game id equals the acceptance id for the
Challenge as well fails. -/
theorem id_stability_challenge_counterexample :
    Game.gameID { head := some (.cc ccFix) } = some (Commit.ID (.ca ccFix.acceptance)) ∧
    Commit.ID (.ch ccFix.acceptance.challenge) ≠ Commit.ID (.ca ccFix.acceptance) := by
  constructor
  · rfl
  · decide

/-- Witness for the amended C3 at the concrete confirmed game with one
step by pB on top of ccFix. -/
theorem id_scheme_and_stability_witness :
    Game.gameID { head := some (.gs pB "m1" (.cc ccFix) 5 none "H4") } =
      some (Commit.ID (.ca ccFix.acceptance)) :=
  (id_scheme_and_stability.2.2.2 ccFix (.gs pB "m1" (.cc ccFix) 5 none "H4")
    (TowerOverCC.step ccFix pB "m1" (.cc ccFix) 5 none "H4" (TowerOverCC.base ccFix))).1

/-! ### Claim C10: partiality on an empty Game -/

/-- C10: NewGame() has a nil head, and ID() and Timestamp() on it reach
the nil-head dereference, modelled by the none result; a game produced by
a successful CreateGame has a non-nil head, so there ID() and Timestamp()
are defined. -/
theorem new_game_nil_head :
    NewGame.head = none ∧ Game.gameID NewGame = none ∧ Game.gameTimestamp NewGame = none ∧
    (∀ (p : Player) (e : Nat) (c : String) (n : Nat) (g : Game),
      createGame p e c n = .ok g →
      g.head.isSome ∧ (Game.gameID g).isSome ∧ (Game.gameTimestamp g).isSome) := by
  refine ⟨rfl, rfl, rfl, fun p e c n g hg => ?_⟩
  unfold createGame at hg
  split at hg
  · exact absurd hg (by simp)
  · split at hg
    · exact absurd hg (by simp)
    · split at hg
      · exact absurd hg (by simp)
      · split at hg
        · exact absurd hg (by simp)
        · simp at hg
          subst hg
          simp [Game.gameID, Game.gameTimestamp]

/-! ### Claim C9: Players() padding -/

theorem insertPl_map_fst (m : List (String × Player)) (i : String) (p : Player) :
    (insertPl m i p).map Prod.fst =
      if m.any (fun x => x.1 = i) then m.map Prod.fst else m.map Prod.fst ++ [i] := by
  unfold insertPl
  split
  · rw [List.map_map]
    apply List.map_congr_left
    intro x hx
    by_cases hxi : x.1 = i <;> simp [hxi]
  · simp

theorem mem_insertPl_fst (m : List (String × Player)) (i s : String) (p : Player) :
    s ∈ (insertPl m i p).map Prod.fst ↔ s ∈ m.map Prod.fst ∨ s = i := by
  rw [insertPl_map_fst]
  split
  · rename_i h
    simp only [List.any_eq_true, decide_eq_true_eq] at h
    obtain ⟨x, hx, hxi⟩ := h
    constructor
    · exact Or.inl
    · rintro (hs | rfl)
      · exact hs
      · exact hxi ▸ List.mem_map_of_mem Prod.fst hx
  · simp

theorem nodup_insertPl_fst (m : List (String × Player)) (i : String) (p : Player)
    (h : (m.map Prod.fst).Nodup) : ((insertPl m i p).map Prod.fst).Nodup := by
  rw [insertPl_map_fst]
  split
  · exact h
  · rename_i hne
    simp only [List.any_eq_true, decide_eq_true_eq] at hne
    push_neg at hne
    simp only [List.nodup_append, List.nodup_cons, List.nodup_nil]
    refine ⟨h, by simp, ?_⟩
    intro s hs
    simp only [List.mem_singleton]
    intro hsi
    subst hsi
    obtain ⟨x, hx, rfl⟩ := List.mem_map.mp hs
    exact hne x hx rfl

theorem collectPlayers_nodup (l : List Commit) :
    ∀ m, ((m.map Prod.fst) : List String).Nodup → ((collectPlayers l m).map Prod.fst).Nodup := by
  induction l with
  | nil => intro m hm; exact hm
  | cons c rest ih =>
    intro m hm
    unfold collectPlayers
    split
    · exact ih _ (nodup_insertPl_fst _ _ _ hm)
    · exact ih _ hm

theorem collectPlayers_mem (l : List Commit) :
    ∀ m s, s ∈ (collectPlayers l m).map Prod.fst ↔
      s ∈ m.map Prod.fst ∨ (s ≠ "" ∧ ∃ c ∈ l, Player.ID c.Committer = s) := by
  induction l with
  | nil => intro m s; simp [collectPlayers]
  | cons c rest ih =>
    intro m s
    unfold collectPlayers
    split
    · rename_i hne
      rw [ih]
      rw [mem_insertPl_fst]
      constructor
      · rintro ((hs | rfl) | hrest)
        · exact Or.inl hs
        · exact Or.inr ⟨hne, c, by simp⟩
        · exact Or.inr ⟨hrest.1, hrest.2.choose, by
            have := hrest.2.choose_spec
            exact ⟨List.mem_cons_of_mem c this.1, this.2⟩⟩
      · rintro (hs | ⟨hsne, x, hx, rfl⟩)
        · exact Or.inl (Or.inl hs)
        · rcases List.mem_cons.mp hx with rfl | hx
          · exact Or.inl (Or.inr rfl)
          · exact Or.inr ⟨hsne, x, hx, rfl⟩
    · rename_i hne
      rw [ih]
      push_neg at hne
      constructor
      · rintro (hs | ⟨hsne, x, hx, rfl⟩)
        · exact Or.inl hs
        · exact Or.inr ⟨hsne, x, List.mem_cons_of_mem c hx, rfl⟩
      · rintro (hs | ⟨hsne, x, hx, rfl⟩)
        · exact Or.inl hs
        · rcases List.mem_cons.mp hx with rfl | hx
          · exact absurd hne (by simp_all)
          · exact Or.inr ⟨hsne, x, hx, rfl⟩

/-- C9: Players() builds the committer map with k distinct non-empty
committer ids, allocates a slice of length k (k nil entries) and appends
the k players to it: the result has length 2k, its first k entries are
nil, and its last k entries are the players of the map; the map keys are
exactly the distinct non-empty committer ids of the chain. -/
theorem players_padding (g : Game) :
    g.players.length = 2 * g.playersMap.length ∧
    g.players.take g.playersMap.length = List.replicate g.playersMap.length none ∧
    g.players.drop g.playersMap.length = g.playersMap.map (fun x => some x.2) ∧
    (g.playersMap.map Prod.fst).Nodup ∧
    (∀ s, s ∈ g.playersMap.map Prod.fst ↔
      s ≠ "" ∧ s ∈ g.commits.map (fun c => Player.ID c.Committer)) := by
  refine ⟨?_, ?_, ?_, ?_, ?_⟩
  · simp [Game.players]; ring
  · have h := List.take_left (List.replicate g.playersMap.length (none : Option Player))
      (g.playersMap.map (fun x => some x.2))
    simp only [List.length_replicate] at h
    simp [Game.players, h]
  · have h := List.drop_left (List.replicate g.playersMap.length (none : Option Player))
      (g.playersMap.map (fun x => some x.2))
    simp only [List.length_replicate] at h
    simp [Game.players, h]
  · exact collectPlayers_nodup _ _ (by simp)
  · intro s
    rw [Game.playersMap, collectPlayers_mem]
    simp only [List.map_nil, List.not_mem_nil, false_or]
    constructor
    · rintro ⟨hs, c, hc, rfl⟩
      refine ⟨hs, List.mem_map_of_mem _ ?_⟩
      cases hh : g.head with
      | none => simp [Game.headToRoot, hh] at hc
      | some h0 =>
        simp only [Game.headToRoot, hh, List.mem_reverse] at hc
        simpa [Game.commits, hh] using hc
    · rintro ⟨hs, hmem⟩
      obtain ⟨c, hc, rfl⟩ := List.mem_map.mp hmem
      refine ⟨hs, c, ?_, rfl⟩
      cases hh : g.head with
      | none => simp [Game.commits, hh] at hc
      | some h0 =>
        simp only [Game.commits, hh] at hc
        simpa [Game.headToRoot, hh, List.mem_reverse] using hc

/-! ### Claim C2: merge rejection and atomicity -/

theorem commonLen_le_left (l1 : List Commit) : ∀ l2, commonLen l1 l2 ≤ l1.length := by
  induction l1 with
  | nil => intro l2; cases l2 <;> simp [commonLen]
  | cons a l1 ih =>
    intro l2
    cases l2 with
    | nil => simp [commonLen]
    | cons b l2 =>
      unfold commonLen
      split
      · exact Nat.succ_le_succ (ih l2)
      · simp

theorem any_hash_empty_eq_false {l : List Commit} (h : ∀ c ∈ l, c.Hash ≠ "") :
    (l.any fun c => c.Hash = "") = false := by
  simp only [List.any_eq_false, decide_eq_true_eq]
  exact h

/-- C2: when all commits of both games are published, Merge fails leaving
the receiver untouched, with the distinct no-common-history error when the
longest common hash prefix is empty, and with the distinct diverged error
when both games have commits past the common prefix. -/
theorem merge_rejection (g o : Game)
    (hg : ∀ c ∈ g.commits, c.Hash ≠ "") (ho : ∀ c ∈ o.commits, c.Hash ≠ "") :
    (commonLen g.commits o.commits = 0 →
      g.merge o = (some "the two games do not share a common history", g)) ∧
    (commonLen g.commits o.commits ≠ 0 →
      g.commits.drop (commonLen g.commits o.commits) ≠ [] →
      o.commits.drop (commonLen g.commits o.commits) ≠ [] →
      g.merge o = (some "the two games have diverged", g)) := by
  have hga := any_hash_empty_eq_false hg
  have hoa := any_hash_empty_eq_false ho
  constructor
  · intro h0
    simp [Game.merge, hga, hoa, h0]
  · intro h0 hgt hot
    have htake : g.commits.take (commonLen g.commits o.commits) ≠ [] := by
      intro hnil
      rw [List.take_eq_nil_iff] at hnil
      rcases hnil with h | h
      · exact h0 h
      · rw [h] at h0
        exact h0 (by cases o.commits <;> rfl)
    obtain ⟨lc, hlc⟩ := Option.isSome_iff_exists.mp (List.getLast?_isSome.mpr htake)
    have hotb : (o.commits.drop (commonLen g.commits o.commits)).isEmpty = false := by
      cases hl : o.commits.drop (commonLen g.commits o.commits) with
      | nil => exact absurd hl hot
      | cons a l => rfl
    have hgtb : (g.commits.drop (commonLen g.commits o.commits)).isEmpty = false := by
      cases hl : g.commits.drop (commonLen g.commits o.commits) with
      | nil => exact absurd hl hgt
      | cons a l => rfl
    simp [Game.merge, hga, hoa, h0, hlc, hotb, hgtb]

/-- Concrete published single-challenge game by pA, for the C2 witness. -/
def gSoloA : Game :=
  { head := some (.ch { timeout := 5, comment := "a", challenger := pA, timestamp := 1,
                        signature := none, hash := "HA" }) }

/-- Concrete published single-challenge game by pB with a different hash. -/
def gSoloB : Game :=
  { head := some (.ch { timeout := 5, comment := "b", challenger := pB, timestamp := 2,
                        signature := none, hash := "HB" }) }

/-- Witness for C2: two separately created, separately published games
share no hash prefix and their merge fails with the no-common-history
error, leaving the receiver unchanged. -/
theorem merge_rejection_witness :
    (∀ c ∈ gSoloA.commits, c.Hash ≠ "") ∧ (∀ c ∈ gSoloB.commits, c.Hash ≠ "") ∧
    gSoloA.merge gSoloB = (some "the two games do not share a common history", gSoloA) :=
  ⟨by decide, by decide,
    (merge_rejection gSoloA gSoloB (by decide) (by decide)).1 (by decide)⟩

/-- The concrete game produced by CreateGame for pA at time 0. -/
def gCW : Game :=
  { head := some (.ch { timeout := 5, comment := "t", challenger := pA, timestamp := 0,
                        signature := some { keyId := 1, data := "A|0|5|t|none" },
                        hash := "" }) }

/-- Witness for C10 at a concrete successful CreateGame call. -/
theorem new_game_nil_head_witness :
    createGame pA 5 "t" 0 = .ok gCW ∧
    gCW.head.isSome ∧ (Game.gameID gCW).isSome ∧ (Game.gameTimestamp gCW).isSome :=
  ⟨by rfl, new_game_nil_head.2.2.2 pA 5 "t" 0 gCW (by rfl)⟩

/-! ### Finder lemmas -/

theorem Commit.findCommit_some_sat {f : Commit → Bool} {h x : Commit}
    (hf : h.findCommit f = some x) : f x = true :=
  List.find?_some hf

theorem Commit.findCommit_gs (f : Commit → Bool) (pl : Player) (d : String) (p : Commit)
    (t : Nat) (s : Option MSig) (hh : String) :
    Commit.findCommit f (.gs pl d p t s hh) =
      if f (.gs pl d p t s hh) then some (.gs pl d p t s hh) else Commit.findCommit f p := by
  cases hf : f (.gs pl d p t s hh) <;>
    simp [Commit.findCommit, Commit.chain, hf, List.find?_cons]

theorem Commit.findCa_findCh (hd : Commit) :
    ∀ a : ChallengeAcceptance, hd.findCommit Commit.isCa = some (.ca a) →
      hd.findCommit Commit.isCh = some (.ch a.challenge) := by
  induction hd with
  | ch c =>
    intro a ha
    exact absurd ha (by simp [Commit.findCommit, Commit.chain, Commit.isCa])
  | ca c =>
    intro a ha
    have hac : c = a := by
      simpa [Commit.findCommit, Commit.chain, Commit.isCa, List.find?_cons] using ha
    subst hac
    simp [Commit.findCommit, Commit.chain, Commit.isCh, Commit.isCa, List.find?_cons]
  | cc c =>
    intro a ha
    have hac : c.acceptance = a := by
      simpa [Commit.findCommit, Commit.chain, Commit.isCa, Commit.isCc, List.find?_cons] using ha
    subst hac
    simp [Commit.findCommit, Commit.chain, Commit.isCh, Commit.isCa, Commit.isCc, List.find?_cons]
  | gs pl d p t s hh ih =>
    intro a ha
    rw [Commit.findCommit_gs] at ha
    rw [Commit.findCommit_gs]
    simp only [Commit.isCa] at ha
    simp only [Commit.isCh]
    exact ih a (by simpa using ha)

theorem getChallenge_of_getAcceptance {g : Game} {a : ChallengeAcceptance}
    (h : g.getAcceptance = some a) : g.getChallenge = some a.challenge := by
  unfold Game.getAcceptance at h
  unfold Game.getChallenge
  cases hh : g.head with
  | none => rw [hh] at h; cases h
  | some hd =>
    rw [hh] at h
    dsimp only at h ⊢
    rcases hf : hd.findCommit Commit.isCa with _ | x
    · rw [hf] at h; cases h
    · have hsat := Commit.findCommit_some_sat hf
      cases x with
      | ca a0 =>
        rw [hf] at h
        simp only [Option.some.injEq] at h
        subst h
        rw [Commit.findCa_findCh hd a0 hf]
      | ch c0 => exact absurd hsat (by simp [Commit.isCa])
      | cc c0 => exact absurd hsat (by simp [Commit.isCa])
      | gs pl d p t s hh2 => exact absurd hsat (by simp [Commit.isCa])

/-! ### Claim C5: confirmation authority -/

theorem validate_cc_head (cc1 : ChallengeConfirmation)
    (h : Player.ID cc1.acceptance.challenge.challenger = Player.ID cc1.confirmer) :
    Game.validate { head := some (.cc cc1) } = none := by
  unfold Game.validate Game.commits Game.getChallenge Game.getConfirmation
  simp [posCheck, Commit.findCommit, Commit.chain, List.find?_cons, Commit.isCh, Commit.isCc, h]

/-- C5 amended: on a game with an acceptance and no confirmation, whose
accepter id and private key are present, Confirm by the original
challenger succeeds and advances the head to a signed confirmation when
the acceptance has a non-empty hash; Confirm by any player other than the
challenger fails with the authority error and leaves the game unchanged. -/
theorem confirm_authority (g : Game) (a : ChallengeAcceptance) (confirmer : Player)
    (e : Nat) (c : String) (n : Nat)
    (hacc : g.getAcceptance = some a) (hconf : g.getConfirmation = none)
    (hid : Player.ID confirmer ≠ "") (hkey : confirmer.privateKey.isSome) :
    (confirmer = a.challenge.challenger → a.hash ≠ "" →
      ∃ s : MSig, g.confirm confirmer e c n =
        (none, { head := some (.cc { timeout := n + e, comment := c, acceptance := a,
                                     confirmer := confirmer, timestamp := n,
                                     signature := some s, hash := "" }) })) ∧
    (confirmer ≠ a.challenge.challenger →
      g.confirm confirmer e c n = (some "only the challenger may confirm a challenge", g)) := by
  obtain ⟨k, hk⟩ := Option.isSome_iff_exists.mp hkey
  have hch : g.getChallenge = some a.challenge := getChallenge_of_getAcceptance hacc
  constructor
  · intro heq hhash
    refine ⟨{ keyId := k,
              data := Commit.ID (.cc { timeout := n + e, comment := c, acceptance := a,
                                       confirmer := confirmer, timestamp := n,
                                       signature := none, hash := "" }) ++ "|" ++
                fmtTime (n + e) ++ "|" ++ c ++ "|" ++ a.hash }, ?_⟩
    unfold Game.confirm
    rw [hconf, hacc, hch]
    simp only [Option.isSome_some, Option.isSome_none, Option.isNone_some, Bool.false_eq_true,
      if_false, if_neg hid, hk, Option.isNone_none]
    rw [if_neg (by simp [heq])]
    unfold Commit.sign
    simp only [Commit.Sig]
    unfold signCommit
    simp only [Commit.Committer, hk]
    unfold Commit.SignatureData
    dsimp only
    rw [if_neg hhash]
    dsimp only [Commit.withSig]
    rw [validate_cc_head _ (by rw [heq])]
    rfl
  · intro hne
    unfold Game.confirm
    rw [hconf, hacc, hch]
    simp only [Option.isSome_some, Option.isSome_none, Option.isNone_some, Bool.false_eq_true,
      if_false, if_neg hid, hk, Option.isNone_none]
    rw [if_pos hne]

/-- C5 counterexample: on the game whose head is the acceptance caFix,
which has an empty hash, Confirm called by the original challenger pA
fails (the confirmation cannot be signed without the acceptance hash) and
leaves the game unchanged, although the claim asserts it succeeds. -/
theorem confirm_unpublished_counterexample :
    Game.getAcceptance { head := some (.ca caFix) } = some caFix ∧
    Game.getConfirmation { head := some (.ca caFix) } = none ∧
    caFix.challenge.challenger = pA ∧ Player.ID pA ≠ "" ∧ pA.privateKey.isSome ∧
    (Game.confirm { head := some (.ca caFix) } pA 5 "ok" 9).1 ≠ none ∧
    (Game.confirm { head := some (.ca caFix) } pA 5 "ok" 9).2 = { head := some (.ca caFix) } := by
  decide

/-- The acceptance caFix after publication: same fields, non-empty hash. -/
def caPub : ChallengeAcceptance :=
  { caFix with hash := "H2" }

/-- Witness for the amended C5 at the published concrete acceptance. -/
theorem confirm_authority_witness :
    Game.getAcceptance { head := some (.ca caPub) } = some caPub ∧
    pA = caPub.challenge.challenger ∧ caPub.hash ≠ "" ∧
    (∃ s : MSig, Game.confirm { head := some (.ca caPub) } pA 5 "go" 9 =
      (none, { head := some (.cc { timeout := 9 + 5, comment := "go", acceptance := caPub,
                                   confirmer := pA, timestamp := 9,
                                   signature := some s, hash := "" }) })) :=
  ⟨by decide, by decide, by decide,
    (confirm_authority { head := some (.ca caPub) } caPub pA 5 "go" 9
      (by decide) (by decide) (by decide) (by decide)).1 (by decide) (by decide)⟩

/-! ### Positional typing lemmas -/

/-- The commit kind required at a given chain position by the validator. -/
def posOK : Nat → Commit → Bool
  | 0, c => c.isCh
  | 1, c => c.isCa
  | 2, c => c.isCc
  | _ + 3, c => c.isGs

@[simp]
theorem posCheck_nil (j : Nat) : posCheck j [] = none := by
  rcases j with _ | _ | _ | j <;> rfl

theorem posCheck_cons_none (j : Nat) (c : Commit) (l : List Commit) :
    posCheck j (c :: l) = none ↔ posOK j c = true ∧ posCheck (j + 1) l = none := by
  rcases j with _ | _ | _ | j <;> cases c <;>
    simp [posCheck, posOK, Commit.isCh, Commit.isCa, Commit.isCc, Commit.isGs]

theorem posCheck_append_none {l1 l2 : List Commit} :
    ∀ j, posCheck j (l1 ++ l2) = none → posCheck j l1 = none := by
  induction l1 with
  | nil => intro j _; exact posCheck_nil j
  | cons c l1 ih =>
    intro j hp
    rw [List.cons_append, posCheck_cons_none] at hp
    rw [posCheck_cons_none]
    exact ⟨hp.1, ih _ hp.2⟩

theorem validate_none_posCheck {g : Game} (h : g.validate = none) :
    posCheck 0 g.commits = none := by
  unfold Game.validate at h
  cases hpc : posCheck 0 g.commits with
  | none => rfl
  | some e => rw [hpc] at h; cases h

theorem Commit.findCommit_eq_none_iff {f : Commit → Bool} {h : Commit} :
    h.findCommit f = none ↔ ∀ x ∈ h.chain, f x = false := by
  simp [Commit.findCommit, List.find?_eq_none, List.mem_reverse]

theorem getAcceptance_none_find {g : Game} {h0 : Commit} (hgh : g.head = some h0)
    (hn : g.getAcceptance = none) : h0.findCommit Commit.isCa = none := by
  unfold Game.getAcceptance at hn
  rw [hgh] at hn
  dsimp only at hn
  rcases hf : h0.findCommit Commit.isCa with _ | x
  · rfl
  · have hsat := Commit.findCommit_some_sat hf
    cases x with
    | ca a0 => rw [hf] at hn; cases hn
    | ch c0 => exact absurd hsat (by simp [Commit.isCa])
    | cc c0 => exact absurd hsat (by simp [Commit.isCa])
    | gs pl d p t s hh2 => exact absurd hsat (by simp [Commit.isCa])

theorem getConfirmation_none_find {g : Game} {h0 : Commit} (hgh : g.head = some h0)
    (hn : g.getConfirmation = none) : h0.findCommit Commit.isCc = none := by
  unfold Game.getConfirmation at hn
  rw [hgh] at hn
  dsimp only at hn
  rcases hf : h0.findCommit Commit.isCc with _ | x
  · rfl
  · have hsat := Commit.findCommit_some_sat hf
    cases x with
    | cc c0 => rw [hf] at hn; cases hn
    | ch c0 => exact absurd hsat (by simp [Commit.isCc])
    | ca a0 => exact absurd hsat (by simp [Commit.isCc])
    | gs pl d p t s hh2 => exact absurd hsat (by simp [Commit.isCc])

/-- A chain that passes positional typing and holds no acceptance is the
one-commit chain of its root challenge. -/
theorem head_ch_of_posCheck_noCa :
    ∀ h : Commit, posCheck 0 h.chain = none → h.findCommit Commit.isCa = none →
      ∃ c, h = .ch c := by
  intro h
  induction h with
  | ch c => intro _ _; exact ⟨c, rfl⟩
  | ca c =>
    intro _ hfind
    exact absurd hfind (by simp [Commit.findCommit, Commit.chain, Commit.isCa, List.find?_cons])
  | cc c =>
    intro _ hfind
    exact absurd hfind
      (by simp [Commit.findCommit, Commit.chain, Commit.isCa, Commit.isCc, List.find?_cons])
  | gs pl d p t s hh ih =>
    intro hpos hfind
    rw [Commit.findCommit_gs] at hfind
    simp only [Commit.isCa, Bool.false_eq_true, if_false] at hfind
    have hposp : posCheck 0 p.chain = none :=
      posCheck_append_none 0 (by simpa [Commit.chain] using hpos)
    obtain ⟨c, rfl⟩ := ih hposp hfind
    exact absurd hpos (by simp [Commit.chain, posCheck])

/-- A chain that passes positional typing, holds an acceptance and no
confirmation, is the two-commit chain headed by that acceptance. -/
theorem head_ca_of_posCheck_ca_noCc :
    ∀ h : Commit, posCheck 0 h.chain = none → h.findCommit Commit.isCc = none →
      h.findCommit Commit.isCa ≠ none → ∃ a, h = .ca a := by
  intro h
  induction h with
  | ch c =>
    intro _ _ hfind
    exact absurd (by simp [Commit.findCommit, Commit.chain, Commit.isCa, List.find?_cons]) hfind
  | ca c => intro _ _ _; exact ⟨c, rfl⟩
  | cc c =>
    intro _ hcc _
    exact absurd hcc (by simp [Commit.findCommit, Commit.chain, Commit.isCc, List.find?_cons])
  | gs pl d p t s hh ih =>
    intro hpos hcc hca
    rw [Commit.findCommit_gs] at hcc hca
    simp only [Commit.isCc, Commit.isCa, Bool.false_eq_true, if_false] at hcc hca
    have hposp : posCheck 0 p.chain = none :=
      posCheck_append_none 0 (by simpa [Commit.chain] using hpos)
    obtain ⟨a, rfl⟩ := ih hposp hcc hca
    exact absurd hpos (by simp [Commit.chain, posCheck])

theorem Commit.sign_ok_shape {c c2 : Commit} (hs : c.Sig = none) (h : c.sign = .ok c2) :
    ∃ s, c2 = c.withSig (some s) := by
  unfold Commit.sign at h
  rw [hs] at h
  cases hsc : signCommit c with
  | error e => rw [hsc] at h; cases h
  | ok s =>
    rw [hsc] at h
    refine ⟨s, ?_⟩
    cases h
    rfl

/-! ### Claim C6: mutation atomicity -/

theorem accept_success_shape (g : Game) (p : Player) (e : Nat) (c : String) (n : Nat)
    (hval : g.validate = none) :
    ∀ g2, g.accept p e c n = (none, g2) →
      ∃ h2, g2.head = some h2 ∧ h2.Parent = g.head ∧
        g2.commits = g.commits ++ [h2] ∧ g2.validate = none := by
  intro g2 h
  unfold Game.accept at h
  split at h
  · exact absurd (Prod.ext_iff.mp h).1 (by simp)
  · rename_i hacc
    split at h
    · exact absurd (Prod.ext_iff.mp h).1 (by simp)
    · rename_i ch hch
      split at h
      · exact absurd (Prod.ext_iff.mp h).1 (by simp)
      · split at h
        · exact absurd (Prod.ext_iff.mp h).1 (by simp)
        · split at h
          · exact absurd (Prod.ext_iff.mp h).1 (by simp)
          · rename_i hd hsign
            split at h
            · exact absurd (Prod.ext_iff.mp h).1 (by simp)
            · rename_i hval2
              have hg2 : g2 = { head := some hd } := (Prod.ext_iff.mp h).2.symm
              subst hg2
              have hAccNone : g.getAcceptance = none := by
                cases hao : g.getAcceptance with
                | none => rfl
                | some a => rw [hao] at hacc; simp at hacc
              cases hgh : g.head with
              | none =>
                unfold Game.getChallenge at hch
                rw [hgh] at hch
                cases hch
              | some h0 =>
                obtain ⟨c0, rfl⟩ := head_ch_of_posCheck_noCa h0
                  (by
                    have := validate_none_posCheck hval
                    simpa [Game.commits, hgh] using this)
                  (getAcceptance_none_find hgh hAccNone)
                have hchc : ch = c0 := by
                  unfold Game.getChallenge at hch
                  rw [hgh] at hch
                  simpa [Commit.findCommit, Commit.chain, Commit.isCh, List.find?_cons]
                    using hch.symm
                subst hchc
                obtain ⟨s, rfl⟩ := Commit.sign_ok_shape (c := .ca
                  { timeout := n + e, challenge := ch, accepter := p, comment := c,
                    timestamp := n, signature := none, hash := "" }) (by rfl) hsign
                refine ⟨_, rfl, ?_, ?_, hval2⟩
                · simp [Commit.withSig, Commit.Parent, hgh]
                · simp [Game.commits, hgh, Commit.withSig, Commit.chain]

theorem confirm_success_shape (g : Game) (p : Player) (e : Nat) (c : String) (n : Nat)
    (hval : g.validate = none) :
    ∀ g2, g.confirm p e c n = (none, g2) →
      ∃ h2, g2.head = some h2 ∧ h2.Parent = g.head ∧
        g2.commits = g.commits ++ [h2] ∧ g2.validate = none := by
  intro g2 h
  unfold Game.confirm at h
  split at h
  · exact absurd (Prod.ext_iff.mp h).1 (by simp)
  · rename_i hconf
    split at h
    · exact absurd (Prod.ext_iff.mp h).1 (by simp)
    · split at h
      · exact absurd (Prod.ext_iff.mp h).1 (by simp)
      · split at h
        · exact absurd (Prod.ext_iff.mp h).1 (by simp)
        · split at h
          · exact absurd (Prod.ext_iff.mp h).1 (by simp)
          · rename_i ch hch
            split at h
            · exact absurd (Prod.ext_iff.mp h).1 (by simp)
            · split at h
              · exact absurd (Prod.ext_iff.mp h).1 (by simp)
              · rename_i a hacc2
                split at h
                · exact absurd (Prod.ext_iff.mp h).1 (by simp)
                · rename_i hd hsign
                  split at h
                  · exact absurd (Prod.ext_iff.mp h).1 (by simp)
                  · rename_i hval2
                    have hg2 : g2 = { head := some hd } := (Prod.ext_iff.mp h).2.symm
                    subst hg2
                    have hConfNone : g.getConfirmation = none := by
                      cases hco : g.getConfirmation with
                      | none => rfl
                      | some k => rw [hco] at hconf; simp at hconf
                    cases hgh : g.head with
                    | none =>
                      unfold Game.getAcceptance at hacc2
                      rw [hgh] at hacc2
                      cases hacc2
                    | some h0 =>
                      have hfindCa : h0.findCommit Commit.isCa ≠ none := by
                        intro hnone
                        unfold Game.getAcceptance at hacc2
                        rw [hgh] at hacc2
                        dsimp only at hacc2
                        rw [hnone] at hacc2
                        cases hacc2
                      obtain ⟨a0, rfl⟩ := head_ca_of_posCheck_ca_noCc h0
                        (by
                          have := validate_none_posCheck hval
                          simpa [Game.commits, hgh] using this)
                        (getConfirmation_none_find hgh hConfNone)
                        hfindCa
                      have haa : a = a0 := by
                        unfold Game.getAcceptance at hacc2
                        rw [hgh] at hacc2
                        simpa [Commit.findCommit, Commit.chain, Commit.isCa,
                          List.find?_cons] using hacc2.symm
                      subst haa
                      obtain ⟨s, rfl⟩ := Commit.sign_ok_shape (c := .cc
                        { timeout := n + e, acceptance := a, confirmer := p, comment := c,
                          timestamp := n, signature := none, hash := "" }) (by rfl) hsign
                      refine ⟨_, rfl, ?_, ?_, hval2⟩
                      · simp [Commit.withSig, Commit.Parent, hgh]
                      · simp [Game.commits, hgh, Commit.withSig, Commit.chain]

theorem step_success_shape (g : Game) (p : Player) (d : String) (n : Nat) :
    ∀ g2, g.step p d n = (none, g2) →
      ∃ h2, g2.head = some h2 ∧ h2.Parent = g.head ∧
        g2.commits = g.commits ++ [h2] ∧ g2.validate = none := by
  intro g2 h
  unfold Game.step at h
  split at h
  · exact absurd (Prod.ext_iff.mp h).1 (by simp)
  · split at h
    · exact absurd (Prod.ext_iff.mp h).1 (by simp)
    · split at h
      · exact absurd (Prod.ext_iff.mp h).1 (by simp)
      · split at h
        · exact absurd (Prod.ext_iff.mp h).1 (by simp)
        · rename_i hdOld hgh
          split at h
          · exact absurd (Prod.ext_iff.mp h).1 (by simp)
          · rename_i hd2 hsign
            split at h
            · exact absurd (Prod.ext_iff.mp h).1 (by simp)
            · rename_i hval2
              have hg2 : g2 = { head := some hd2 } := (Prod.ext_iff.mp h).2.symm
              subst hg2
              obtain ⟨s, rfl⟩ := Commit.sign_ok_shape
                (c := .gs p d hdOld n none "") (by rfl) hsign
              refine ⟨_, rfl, ?_, ?_, hval2⟩
              · simp [Commit.withSig, Commit.Parent, hgh]
              · simp [Game.commits, hgh, Commit.withSig, Commit.chain]

theorem accept_failure_unchanged (g : Game) (p : Player) (e : Nat) (c : String) (n : Nat) :
    (g.accept p e c n).1 ≠ none → (g.accept p e c n).2 = g := by
  unfold Game.accept
  repeat' split
  all_goals first
  | (intro _; rfl)
  | (intro hcon; exact absurd rfl hcon)

theorem confirm_failure_unchanged (g : Game) (p : Player) (e : Nat) (c : String) (n : Nat) :
    (g.confirm p e c n).1 ≠ none → (g.confirm p e c n).2 = g := by
  unfold Game.confirm
  repeat' split
  all_goals first
  | (intro _; rfl)
  | (intro hcon; exact absurd rfl hcon)

theorem step_failure_unchanged (g : Game) (p : Player) (d : String) (n : Nat) :
    (g.step p d n).1 ≠ none → (g.step p d n).2 = g := by
  unfold Game.step
  repeat' split
  all_goals first
  | (intro _; rfl)
  | (intro hcon; exact absurd rfl hcon)

/-- C6 amended: on a game whose chain passes the validator, a successful
Accept, Confirm or Step appends exactly one new commit whose Parent is the
previous head, makes it the new head, and leaves the chain valid; any
failing Accept, Confirm or Step, on any game, leaves the game exactly as
it was before the call. -/
theorem mutation_atomicity (g : Game) (p : Player) (e : Nat) (c : String) (n : Nat)
    (d : String) :
    (g.validate = none →
      (∀ g2, g.accept p e c n = (none, g2) →
        ∃ h2, g2.head = some h2 ∧ h2.Parent = g.head ∧
          g2.commits = g.commits ++ [h2] ∧ g2.validate = none) ∧
      (∀ g2, g.confirm p e c n = (none, g2) →
        ∃ h2, g2.head = some h2 ∧ h2.Parent = g.head ∧
          g2.commits = g.commits ++ [h2] ∧ g2.validate = none) ∧
      (∀ g2, g.step p d n = (none, g2) →
        ∃ h2, g2.head = some h2 ∧ h2.Parent = g.head ∧
          g2.commits = g.commits ++ [h2] ∧ g2.validate = none)) ∧
    ((g.accept p e c n).1 ≠ none → (g.accept p e c n).2 = g) ∧
    ((g.confirm p e c n).1 ≠ none → (g.confirm p e c n).2 = g) ∧
    ((g.step p d n).1 ≠ none → (g.step p d n).2 = g) :=
  ⟨fun hval => ⟨accept_success_shape g p e c n hval, confirm_success_shape g p e c n hval,
    step_success_shape g p d n⟩,
   accept_failure_unchanged g p e c n, confirm_failure_unchanged g p e c n,
   step_failure_unchanged g p d n⟩

/-- An invalid game: a step sitting directly on a published challenge. -/
def gWeird : Game :=
  { head := some (.gs pB "x" (.ch caFix.challenge) 2 none "HS") }

/-- C6 counterexample: on the invalid game gWeird, Accept succeeds but the
new head is parented on the challenge rather than on the previous head,
and the chain length is unchanged instead of extended by one commit, so
the claim, quantified over every game, fails. -/
theorem mutation_atomicity_counterexample :
    (Game.accept gWeird pB 5 "y" 9).1 = none ∧
    Option.map Commit.Parent (Game.accept gWeird pB 5 "y" 9).2.head ≠ some gWeird.head ∧
    (Game.accept gWeird pB 5 "y" 9).2.commits.length = gWeird.commits.length := by
  decide

/-- A valid one-commit game over the published challenge of caFix. -/
def gPubCh : Game :=
  { head := some (.ch caFix.challenge) }

/-- Witness for the amended C6 at a concrete valid game and a successful
Accept call. -/
theorem mutation_atomicity_witness :
    gPubCh.validate = none ∧
    (∃ h2, (Game.accept gPubCh pB 5 "y" 9).2.head = some h2 ∧
      h2.Parent = gPubCh.head ∧
      (Game.accept gPubCh pB 5 "y" 9).2.commits = gPubCh.commits ++ [h2] ∧
      (Game.accept gPubCh pB 5 "y" 9).2.validate = none) :=
  ⟨by decide,
    ((mutation_atomicity gPubCh pB 5 "y" 9 "d").1 (by decide)).1
      (Game.accept gPubCh pB 5 "y" 9).2 (by decide)⟩

/-! ### Claim C7: structural chain invariant -/

/-- Games reachable by a successful CreateGame followed by any sequence of
successful Accept, Confirm, Step and Merge calls. -/
inductive Reachable : Game → Prop
  | created (p : Player) (e : Nat) (c : String) (n : Nat) (g : Game) :
      createGame p e c n = .ok g → Reachable g
  | accepted (g : Game) (p : Player) (e : Nat) (c : String) (n : Nat) (g2 : Game) :
      Reachable g → g.accept p e c n = (none, g2) → Reachable g2
  | confirmed (g : Game) (p : Player) (e : Nat) (c : String) (n : Nat) (g2 : Game) :
      Reachable g → g.confirm p e c n = (none, g2) → Reachable g2
  | stepped (g : Game) (p : Player) (d : String) (n : Nat) (g2 : Game) :
      Reachable g → g.step p d n = (none, g2) → Reachable g2
  | merged (g o g2 : Game) :
      Reachable g → g.merge o = (none, g2) → Reachable g2

theorem createGame_ok_validate {p : Player} {e : Nat} {c : String} {n : Nat} {g : Game}
    (h : createGame p e c n = .ok g) : g.validate = none := by
  unfold createGame at h
  split at h
  · cases h
  · split at h
    · cases h
    · split at h
      · cases h
      · split at h
        · cases h
        · rename_i hv
          cases h
          exact hv

theorem accept_ok_validate (g : Game) (p : Player) (e : Nat) (c : String) (n : Nat) :
    (g.accept p e c n).1 = none → ((g.accept p e c n).2).validate = none := by
  unfold Game.accept
  repeat' split
  all_goals intro hcon
  all_goals first
  | (rename_i hv; exact hv)
  | simp at hcon

theorem confirm_ok_validate (g : Game) (p : Player) (e : Nat) (c : String) (n : Nat) :
    (g.confirm p e c n).1 = none → ((g.confirm p e c n).2).validate = none := by
  unfold Game.confirm
  repeat' split
  all_goals intro hcon
  all_goals first
  | (rename_i hv; exact hv)
  | simp at hcon

theorem step_ok_validate (g : Game) (p : Player) (d : String) (n : Nat) :
    (g.step p d n).1 = none → ((g.step p d n).2).validate = none := by
  unfold Game.step
  repeat' split
  all_goals intro hcon
  all_goals first
  | (rename_i hv; exact hv)
  | simp at hcon

theorem merge_ok_validate (g o : Game) (hgv : g.validate = none) :
    (g.merge o).1 = none → ((g.merge o).2).validate = none := by
  unfold Game.merge
  repeat' split
  all_goals intro hcon
  all_goals first
  | (rename_i hv; exact hv)
  | exact hgv

theorem reachable_validate {g : Game} (h : Reachable g) : g.validate = none := by
  induction h with
  | created p e c n g hg => exact createGame_ok_validate hg
  | accepted g p e c n g2 hr hop ih =>
    have h1 : (g.accept p e c n).1 = none := by rw [hop]
    have h2 := accept_ok_validate g p e c n h1
    rw [hop] at h2
    exact h2
  | confirmed g p e c n g2 hr hop ih =>
    have h1 : (g.confirm p e c n).1 = none := by rw [hop]
    have h2 := confirm_ok_validate g p e c n h1
    rw [hop] at h2
    exact h2
  | stepped g p d n g2 hr hop ih =>
    have h1 : (g.step p d n).1 = none := by rw [hop]
    have h2 := step_ok_validate g p d n h1
    rw [hop] at h2
    exact h2
  | merged g o g2 hr hop ih =>
    have h1 : (g.merge o).1 = none := by rw [hop]
    have h2 := merge_ok_validate g o ih h1
    rw [hop] at h2
    exact h2

theorem validate_none_ids {g : Game} (h : g.validate = none) :
    ∀ ch cc, g.getChallenge = some ch → g.getConfirmation = some cc →
      Player.ID ch.challenger = Player.ID cc.confirmer := by
  intro ch cc hch hcc
  unfold Game.validate at h
  cases hpc : posCheck 0 g.commits with
  | some e => rw [hpc] at h; cases h
  | none =>
    rw [hpc, hch, hcc] at h
    dsimp only at h
    by_contra hne
    rw [if_pos hne] at h
    cases h

theorem posCheck_none_spec :
    ∀ (l : List Commit) (j i : Nat) (hi : i < l.length), posCheck j l = none →
      ((j + i = 0 → (l.get ⟨i, hi⟩).isCh = true) ∧
       (j + i = 1 → (l.get ⟨i, hi⟩).isCa = true) ∧
       (j + i = 2 → (l.get ⟨i, hi⟩).isCc = true) ∧
       (3 ≤ j + i → (l.get ⟨i, hi⟩).isGs = true)) := by
  intro l
  induction l with
  | nil => intro j i hi; simp at hi
  | cons c rest ih =>
    intro j i hi hp
    rw [posCheck_cons_none] at hp
    cases i with
    | zero =>
      rcases j with _ | _ | _ | j
      all_goals refine ⟨fun h1 => ?_, fun h2 => ?_, fun h3 => ?_, fun h4 => ?_⟩
      all_goals first
      | (simpa [posOK] using hp.1)
      | (exfalso; omega)
    | succ i2 =>
      have h2 := ih (j + 1) i2 (by simpa using hi) hp.2
      have heq : j + 1 + i2 = j + (i2 + 1) := by omega
      rw [heq] at h2
      simpa using h2

/-- C7: every game reachable by a successful CreateGame followed by any
sequence of successful Accept, Confirm, Step and Merge calls satisfies the
positional typing rules of the validator, and whenever both a challenge
and a confirmation are present the id of the confirmer equals the id of
the challenger. -/
theorem chain_invariant (g : Game) (h : Reachable g) :
    (∀ i (hi : i < g.commits.length),
      (i = 0 → (g.commits.get ⟨i, hi⟩).isCh = true) ∧
      (i = 1 → (g.commits.get ⟨i, hi⟩).isCa = true) ∧
      (i = 2 → (g.commits.get ⟨i, hi⟩).isCc = true) ∧
      (3 ≤ i → (g.commits.get ⟨i, hi⟩).isGs = true)) ∧
    (∀ ch cc, g.getChallenge = some ch → g.getConfirmation = some cc →
      Player.ID ch.challenger = Player.ID cc.confirmer) := by
  have hv := reachable_validate h
  refine ⟨?_, validate_none_ids hv⟩
  intro i hi
  have hs := posCheck_none_spec g.commits 0 i hi (validate_none_posCheck hv)
  simpa using hs

/-- Witness for C7 at the concrete game created by pA. -/
theorem chain_invariant_witness :
    (∀ i (hi : i < gCW.commits.length),
      (i = 0 → (gCW.commits.get ⟨i, hi⟩).isCh = true) ∧
      (i = 1 → (gCW.commits.get ⟨i, hi⟩).isCa = true) ∧
      (i = 2 → (gCW.commits.get ⟨i, hi⟩).isCc = true) ∧
      (3 ≤ i → (gCW.commits.get ⟨i, hi⟩).isGs = true)) ∧
    (∀ ch cc, gCW.getChallenge = some ch → gCW.getConfirmation = some cc →
      Player.ID ch.challenger = Player.ID cc.confirmer) :=
  chain_invariant gCW (Reachable.created pA 5 "t" 0 gCW (by rfl))

/-! ### Claim C1: fast-forward merge -/

theorem Commit.chain_parent_at (h : Commit) :
    ∀ i x y, h.chain[i]? = some x → h.chain[i+1]? = some y → y.Parent = some x := by
  induction h with
  | ch c =>
    intro i x y hx hy
    rcases i with _ | i <;> simp [Commit.chain] at hy
  | ca c =>
    intro i x y hx hy
    rcases i with _ | _ | i <;> simp [Commit.chain] at hx hy
    subst hx; subst hy; rfl
  | cc c =>
    intro i x y hx hy
    rcases i with _ | _ | _ | i <;> simp [Commit.chain] at hx hy
    all_goals (subst hx; subst hy; rfl)
  | gs pl d p t s hh ih =>
    intro i x y hx hy
    rw [show Commit.chain (.gs pl d p t s hh) = p.chain ++ [.gs pl d p t s hh] from rfl]
      at hx hy
    by_cases h1 : i + 1 < p.chain.length
    · rw [List.getElem?_append, if_pos (by omega)] at hx
      rw [List.getElem?_append, if_pos h1] at hy
      exact ih i x y hx hy
    · by_cases h2 : i + 1 = p.chain.length
      · have hylen : p.chain.length ≤ i + 1 := by omega
        rw [List.getElem?_append_right hylen] at hy
        have hi : i < p.chain.length := by omega
        rw [List.getElem?_append, if_pos hi] at hx
        have hy2 : Commit.gs pl d p t s hh = y := by
          rw [h2] at hy
          simpa using hy
        subst hy2
        have hlast : p.chain[i]? = some p := by
          have hgl := Commit.chain_getLast p
          rw [List.getLast?_eq_getElem?] at hgl
          have : i = p.chain.length - 1 := by omega
          rw [this]
          exact hgl
        rw [hlast] at hx
        cases hx
        rfl
      · have : (p.chain ++ [Commit.gs pl d p t s hh])[i + 1]? = none := by
          apply List.getElem?_eq_none
          simp only [List.length_append, List.length_cons, List.length_nil]
          omega
        rw [this] at hy
        cases hy

/-- Conditions under which the merge clone loop reproduces a tail commit
exactly: each commit is parented on the previous one, verifies, is not a
challenge, and a game step only follows a confirmation or another step. -/
def tailOK : Commit → List Commit → Prop
  | _, [] => True
  | prev, x :: rest =>
    x.Parent = some prev ∧ verifyCommit x = .ok () ∧ x.isCh = false ∧
      (x.isGs = true → prev.isCc = true ∨ prev.isGs = true) ∧ tailOK x rest

theorem cloneOnto_self {prev x : Commit} (hp : x.Parent = some prev)
    (hv : verifyCommit x = .ok ()) (hch : x.isCh = false)
    (hgs : x.isGs = true → prev.isCc = true ∨ prev.isGs = true) :
    cloneOnto prev x = .ok x := by
  cases x with
  | ch c => simp [Commit.isCh] at hch
  | ca c =>
    have hprev : Commit.ch c.challenge = prev := by
      simpa [Commit.Parent] using hp
    subst hprev
    simp [cloneOnto, hv]
  | cc c =>
    have hprev : Commit.ca c.acceptance = prev := by
      simpa [Commit.Parent] using hp
    subst hprev
    simp [cloneOnto, hv]
  | gs pl d p t s hh =>
    have hprev : p = prev := by
      simpa [Commit.Parent] using hp
    subst hprev
    rcases hgs (by rfl) with hk | hk
    · cases p with
      | cc k => simp [cloneOnto, hv]
      | ch k => simp [Commit.isCc] at hk
      | ca k => simp [Commit.isCc] at hk
      | gs a b q u v w => simp [Commit.isCc] at hk
    · cases p with
      | gs a b q u v w => simp [cloneOnto, hv]
      | ch k => simp [Commit.isGs] at hk
      | ca k => simp [Commit.isGs] at hk
      | cc k => simp [Commit.isGs] at hk

theorem mergeTail_tailOK :
    ∀ (l : List Commit) (prev : Commit), tailOK prev l →
      mergeTail prev l = .ok ((prev :: l).getLast (by simp)) := by
  intro l
  induction l with
  | nil => intro prev _; rfl
  | cons x rest ih =>
    intro prev hok
    obtain ⟨hp, hv, hch, hgs, hrest⟩ := hok
    unfold mergeTail
    rw [cloneOnto_self hp hv hch hgs]
    dsimp only
    rw [ih x hrest]
    congr 1

theorem Commit.isCh_false_of_isCa {x : Commit} (h : x.isCa = true) : x.isCh = false := by
  cases x <;> simp_all [Commit.isCa, Commit.isCh]

theorem Commit.isCh_false_of_isCc {x : Commit} (h : x.isCc = true) : x.isCh = false := by
  cases x <;> simp_all [Commit.isCc, Commit.isCh]

theorem Commit.isCh_false_of_isGs {x : Commit} (h : x.isGs = true) : x.isCh = false := by
  cases x <;> simp_all [Commit.isGs, Commit.isCh]

theorem Commit.isGs_false_of_isCa {x : Commit} (h : x.isCa = true) : x.isGs = false := by
  cases x <;> simp_all [Commit.isCa, Commit.isGs]

theorem Commit.isGs_false_of_isCc {x : Commit} (h : x.isCc = true) : x.isGs = false := by
  cases x <;> simp_all [Commit.isCc, Commit.isGs]

theorem tailOK_of_chain (os : List Commit) (k : Nat)
    (hadj : ∀ i x y, os[i]? = some x → os[i+1]? = some y → y.Parent = some x)
    (hpos : posCheck 0 os = none)
    (hver : ∀ x ∈ os.drop k, verifyCommit x = .ok ()) :
    ∀ (m j : Nat) (prev : Commit), os.length - j = m → 0 < j → k ≤ j →
      os[j-1]? = some prev → tailOK prev (os.drop j) := by
  intro m
  induction m with
  | zero =>
    intro j prev hm _ _ _
    have hnil : os.drop j = [] := List.drop_eq_nil_of_le (by omega)
    rw [hnil]
    trivial
  | succ m ih =>
    intro j prev hm hj hkj hprev
    have hjlen : j < os.length := by omega
    rcases hx : os[j]? with _ | x
    · rw [List.getElem?_eq_none_iff] at hx
      omega
    · have hgetx : os.get ⟨j, hjlen⟩ = x := by
        have := List.getElem?_eq_getElem hjlen
        rw [hx] at this
        exact (Option.some.injEq _ _ ▸ this).symm
      have hjm : j - 1 < os.length := by omega
      have hgetp : os.get ⟨j - 1, hjm⟩ = prev := by
        have := List.getElem?_eq_getElem hjm
        rw [hprev] at this
        exact (Option.some.injEq _ _ ▸ this).symm
      have hdropx : os.drop j = x :: os.drop (j + 1) := by
        rw [List.drop_eq_getElem_cons hjlen]
        congr 1
      rw [hdropx]
      have hkindx := posCheck_none_spec os 0 j hjlen hpos
      have hkindp := posCheck_none_spec os 0 (j - 1) hjm hpos
      simp only [Nat.zero_add] at hkindx hkindp
      have hpar : x.Parent = some prev := by
        apply hadj (j - 1) prev x hprev
        have : j - 1 + 1 = j := by omega
        rw [this]
        exact hx
      have hmemx : x ∈ os.drop k := by
        have hidx : (os.drop k)[j - k]? = some x := by
          rw [List.getElem?_drop]
          have : k + (j - k) = j := by omega
          rw [this]
          exact hx
        exact List.getElem?_mem hidx
      have hxch : x.isCh = false := by
        rcases Nat.lt_or_ge j 3 with h3 | h3
        · interval_cases j
          · exact Commit.isCh_false_of_isCa (by rw [← hgetx]; exact hkindx.2.1 rfl)
          · exact Commit.isCh_false_of_isCc (by rw [← hgetx]; exact hkindx.2.2.1 rfl)
        · exact Commit.isCh_false_of_isGs (by rw [← hgetx]; exact hkindx.2.2.2 h3)
      refine ⟨hpar, hver x hmemx, hxch, ?_, ?_⟩
      · intro hxgs
        rcases Nat.lt_or_ge j 3 with h3 | h3
        · interval_cases j
          · exact absurd hxgs (by
              rw [Commit.isGs_false_of_isCa (by rw [← hgetx]; exact hkindx.2.1 rfl)]
              simp)
          · exact absurd hxgs (by
              rw [Commit.isGs_false_of_isCc (by rw [← hgetx]; exact hkindx.2.2.1 rfl)]
              simp)
        · rcases Nat.lt_or_ge (j - 1) 3 with h4 | h4
          · left
            rw [← hgetp]
            exact hkindp.2.2.1 (by omega)
          · right
            rw [← hgetp]
            exact hkindp.2.2.2 h4
      · have hnext : os[j + 1 - 1]? = some x := by simpa using hx
        exact ih (j + 1) x (by omega) (by omega) (by omega) hnext

theorem commonLen_refl : ∀ l : List Commit, commonLen l l = l.length := by
  intro l
  induction l with
  | nil => rfl
  | cons a l ih => simp [commonLen, ih]

theorem commonLen_take : ∀ (l : List Commit) (k : Nat), k ≤ l.length →
    commonLen (l.take k) l = k := by
  intro l
  induction l with
  | nil =>
    intro k hk
    have hk0 : k = 0 := by simpa using hk
    subst hk0
    rfl
  | cons a l ih =>
    intro k hk
    cases k with
    | zero => rfl
    | succ k2 =>
      rw [List.take_succ_cons]
      unfold commonLen
      rw [if_pos rfl, ih k2 (by simpa using hk)]

theorem merge_noop_self (o : Game) (hhash : ∀ c ∈ o.commits, c.Hash ≠ "")
    (hne : o.commits ≠ []) : o.merge o = (none, o) := by
  have hoa := any_hash_empty_eq_false hhash
  unfold Game.merge
  simp only [hoa, Bool.false_eq_true, if_false, commonLen_refl]
  rw [if_neg (by simpa using hne)]
  obtain ⟨lc, hlc⟩ := Option.isSome_iff_exists.mp (List.getLast?_isSome.mpr
    (show o.commits.take o.commits.length ≠ [] by rw [List.take_length]; exact hne))
  rw [hlc]
  simp [List.drop_length]

/-- C1 amended: when the local game is a non-empty strict prefix of the
other game as commit values, every commit of the other game is published,
every commit past the prefix verifies, and the other game passes the
validator, Merge succeeds, the local head becomes the other head (so the
head hashes agree), and merging again immediately afterwards succeeds and
leaves the head unchanged. -/
theorem merge_fast_forward (g o : Game) (k : Nat)
    (_hk : g.commits.length = k) (hk0 : 0 < k) (hklen : k < o.commits.length)
    (hpre : g.commits = o.commits.take k)
    (hhash : ∀ c ∈ o.commits, c.Hash ≠ "")
    (hver : ∀ c ∈ o.commits.drop k, verifyCommit c = .ok ())
    (hoval : o.validate = none) :
    g.merge o = (none, { head := o.head }) ∧
    Option.map Commit.Hash ((g.merge o).2).head = Option.map Commit.Hash o.head ∧
    Game.merge ((g.merge o).2) o = (none, (g.merge o).2) := by
  cases hoh : o.head with
  | none =>
    exfalso
    have hnil : o.commits = [] := by simp [Game.commits, hoh]
    rw [hnil] at hklen
    simp at hklen
  | some oh =>
    have hos : o.commits = oh.chain := by simp [Game.commits, hoh]
    have hga : (g.commits.any fun c => c.Hash = "") = false := by
      apply any_hash_empty_eq_false
      intro c hc
      exact hhash c (List.mem_of_mem_take (hpre ▸ hc))
    have hoa := any_hash_empty_eq_false hhash
    have hcl : commonLen g.commits o.commits = k := by
      rw [hpre]
      exact commonLen_take _ k (le_of_lt hklen)
    rcases hp : o.commits[k - 1]? with _ | prev
    · rw [List.getElem?_eq_none_iff] at hp
      omega
    · have hprev1 : (g.commits.take k).getLast? = some prev := by
        rw [hpre, List.take_take]
        have hmm : min k k = k := by omega
        rw [hmm, List.getLast?_eq_getElem?, List.length_take]
        have hmin : min k o.commits.length - 1 = k - 1 := by omega
        rw [hmin, List.getElem?_take, if_pos (by omega)]
        exact hp
      have hadj : ∀ i x y, o.commits[i]? = some x → o.commits[i+1]? = some y →
          y.Parent = some x := by
        rw [hos]
        exact oh.chain_parent_at
      have hpos : posCheck 0 o.commits = none := validate_none_posCheck hoval
      have htail : tailOK prev (o.commits.drop k) :=
        tailOK_of_chain o.commits k hadj hpos hver (o.commits.length - k) k prev rfl hk0
          le_rfl hp
      have hmt := mergeTail_tailOK (o.commits.drop k) prev htail
      have hdropne2 : o.commits.drop k ≠ [] := by
        intro hnil
        rw [List.drop_eq_nil_iff] at hnil
        omega
      have hlastoh : (prev :: o.commits.drop k).getLast (by simp) = oh := by
        rw [List.getLast_cons hdropne2]
        have h1 : (o.commits.drop k).getLast? = some oh := by
          rw [List.getLast?_eq_getElem?, List.length_drop, List.getElem?_drop]
          have harith : k + (o.commits.length - k - 1) = o.commits.length - 1 := by omega
          rw [harith, ← List.getLast?_eq_getElem?, hos]
          exact oh.chain_getLast
        have h2 := List.getLast?_eq_getLast (o.commits.drop k) hdropne2
        rw [h2] at h1
        exact Option.some_injective _ h1
      rw [hlastoh] at hmt
      have hdropne : (o.commits.drop k).isEmpty = false := by
        cases hl : o.commits.drop k with
        | nil => exact absurd hl hdropne2
        | cons a l => rfl
      have hgdrop : (g.commits.drop k).isEmpty = true := by
        rw [hpre, List.drop_eq_nil_of_le]
        · rfl
        · rw [List.length_take]
          omega
      have ho_eq : ({ head := some oh } : Game) = o := by
        cases o with
        | mk hh =>
          simp only at hoh
          rw [hoh]
      have hvalnew : Game.validate { head := some oh } = none := by
        rw [ho_eq]
        exact hoval
      have hmain : g.merge o = (none, { head := some oh }) := by
        unfold Game.merge
        rw [hga, hoa]
        simp only [Bool.false_eq_true, if_false]
        rw [hcl]
        rw [if_neg (by omega : ¬ k = 0)]
        rw [hprev1]
        dsimp only
        rw [hdropne, hgdrop]
        simp only [Bool.false_eq_true, if_false, Bool.not_true, hmt]
        rw [hvalnew]
      refine ⟨by rw [hmain, ho_eq], ?_, ?_⟩
      · rw [hmain]
      · rw [hmain]
        dsimp only
        rw [ho_eq]
        apply merge_noop_self o hhash
        intro hnil
        rw [hnil] at hklen
        simp at hklen

/-- An unsigned acceptance over the published challenge of caFix, itself
carrying a hash: a hash-equal strict extension whose tail does not verify. -/
def caBad : ChallengeAcceptance :=
  { timeout := 7, comment := "x", challenge := caFix.challenge, accepter := pB,
    timestamp := 3, signature := none, hash := "H2" }

/-- C1 counterexample: the one-commit game over the published challenge is
a strict prefix, under pairwise hash equality, of the two-commit game
ending in the unsigned acceptance caBad, and all commits of both games
carry non-empty hashes, yet Merge fails (the cloned acceptance does not
verify) and leaves the receiver unchanged. -/
theorem merge_fast_forward_counterexample :
    gPubCh.commits = (Game.commits { head := some (.ca caBad) }).take 1 ∧
    gPubCh.commits.length = 1 ∧
    1 < (Game.commits { head := some (.ca caBad) }).length ∧
    (∀ c ∈ gPubCh.commits, c.Hash ≠ "") ∧
    (∀ c ∈ Game.commits { head := some (.ca caBad) }, c.Hash ≠ "") ∧
    (Game.merge gPubCh { head := some (.ca caBad) }).1 ≠ none ∧
    (Game.merge gPubCh { head := some (.ca caBad) }).2 = gPubCh := by
  decide

/-- A properly signed and published acceptance over the challenge of
caFix, for the C1 witness. -/
def caW2 : ChallengeAcceptance :=
  { timeout := 7, comment := "x", challenge := caFix.challenge, accepter := pB,
    timestamp := 3, signature := some { keyId := 2, data := "A|1|B|7|x|H1" }, hash := "H2" }

/-- Witness for the amended C1 at the concrete one-commit prefix game and
the two-commit extension ending in the verifying acceptance caW2. -/
theorem merge_fast_forward_witness :
    Game.merge gPubCh { head := some (.ca caW2) } =
      (none, { head := Game.head { head := some (.ca caW2) } }) ∧
    Game.merge (Game.merge gPubCh { head := some (.ca caW2) }).2
        { head := some (.ca caW2) } =
      (none, (Game.merge gPubCh { head := some (.ca caW2) }).2) :=
  have h := merge_fast_forward gPubCh { head := some (.ca caW2) } 1
    (by decide) (by decide) (by decide) (by decide) (by decide) (by decide) (by decide)
  ⟨h.1, h.2.2⟩
